import Mathlib

/-!
Verification development for the aikosh-indiaai repository.

Part I embeds the frontend streaming client (`src/frontend/src/services/api.js`,
`sendChatMessageStream`) and the chat interface's response handler and
auto-trigger effect (`src/frontend/src/components/ChatInterface.jsx`).
Strings are modelled as `List Char`; the SSE framing, buffering, regex
matching and JSON dispatch are translated from the JavaScript source.

Part II models the legal-reference retrieval engine (extractor → chunker →
embedder → vector index → retriever).  Its Python sources (FAISS index build
and query scripts) are not part of the checked-out tree, so those
definitions are modelled from the specification, as marked in their
doc comments.
-/

namespace Aikosh

/-! ### SSE framing: `buffer.split('\n\n')` from `sendChatMessageStream` -/

/-- Embeds the JavaScript `buffer.split('\n\n')` in `api.js`: split a
character list on each leftmost, non-overlapping occurrence of two
consecutive newlines.  Always returns a non-empty list of segments. -/
def splitSep : List Char → List (List Char)
  | [] => [[]]
  | c :: rest =>
    if c = '\n' ∧ rest.head? = some '\n' then
      [] :: splitSep rest.tail
    else
      (c :: (splitSep rest).headI) :: (splitSep rest).tail
termination_by l => l.length
decreasing_by
  · simp only [List.length_cons]
    have : rest.tail.length ≤ rest.length := by
      cases rest <;> simp
    omega
  · simp

theorem splitSep_nil : splitSep [] = [[]] := by
  simp [splitSep]

theorem splitSep_cons_sep (r : List Char) :
    splitSep ('\n' :: '\n' :: r) = [] :: splitSep r := by
  rw [splitSep]
  simp

theorem splitSep_cons_nosep (c : Char) (rest : List Char)
    (h : ¬(c = '\n' ∧ rest.head? = some '\n')) :
    splitSep (c :: rest) = (c :: (splitSep rest).headI) :: (splitSep rest).tail := by
  rw [splitSep]
  simp [h]

theorem splitSep_ne_nil (l : List Char) : splitSep l ≠ [] := by
  cases l with
  | nil => simp [splitSep_nil]
  | cons c rest =>
    by_cases h : c = '\n' ∧ rest.head? = some '\n'
    · obtain ⟨hc, hh⟩ := h
      cases rest with
      | nil => simp at hh
      | cons d r =>
        simp only [List.head?_cons, Option.some.injEq] at hh
        subst hc hh
        rw [splitSep_cons_sep]
        simp
    · rw [splitSep_cons_nosep c rest h]
      simp

/-- A singleton split result means the separator never occurred: the single
segment is the whole input. -/
theorem splitSep_tail_nil (l : List Char) (h : (splitSep l).tail = []) :
    splitSep l = [l] := by
  induction l with
  | nil => simp [splitSep_nil]
  | cons c rest ih =>
    by_cases hc : c = '\n' ∧ rest.head? = some '\n'
    · obtain ⟨hc1, hc2⟩ := hc
      cases rest with
      | nil => simp at hc2
      | cons d r =>
        simp only [List.head?_cons, Option.some.injEq] at hc2
        subst hc1 hc2
        rw [splitSep_cons_sep] at h
        simp only [List.tail_cons] at h
        exact absurd h (splitSep_ne_nil r)
    · rw [splitSep_cons_nosep c rest hc] at h ⊢
      simp only [List.tail_cons] at h
      rw [ih h]
      simp

/-- The trailing element of a segment list, `[]` when the list is empty.
Models `lines.pop() || ''` in `sendChatMessageStream`. -/
def lastSeg (ls : List (List Char)) : List Char := ls.getLastD []

theorem lastSeg_singleton (a : List Char) : lastSeg [a] = a := rfl

theorem lastSeg_cons_cons (a b : List Char) (l : List (List Char)) :
    lastSeg (a :: b :: l) = lastSeg (b :: l) := by
  unfold lastSeg
  rw [List.getLastD_cons, List.getLastD_cons, List.getLastD_cons]

/-- Splitting a concatenation: the separator scan of `a ++ b` agrees with the
scan of `a` on all fully delimited segments, and the trailing segment of `a`
is carried into the scan of the remainder.  This is exactly the invariant the
JavaScript loop relies on when it keeps `lines.pop()` as the new buffer. -/
theorem splitSep_append (a : List Char) :
    ∀ b, splitSep (a ++ b) =
      (splitSep a).dropLast ++ splitSep (lastSeg (splitSep a) ++ b) := by
  induction a using splitSep.induct with
  | case1 =>
    intro b
    simp [splitSep_nil, lastSeg]
  | case2 c rest h ih =>
    intro b
    obtain ⟨hc, hh⟩ := h
    cases rest with
    | nil => simp at hh
    | cons d r =>
      simp only [List.head?_cons, Option.some.injEq] at hh
      subst hc hh
      simp only [List.cons_append]
      rw [splitSep_cons_sep (r ++ b), splitSep_cons_sep r]
      obtain ⟨s0, s1, hs⟩ := List.exists_cons_of_ne_nil (splitSep_ne_nil r)
      have hrec := ih b
      simp only [List.tail_cons] at hrec
      rw [hrec, hs, lastSeg_cons_cons]
      simp
  | case3 c rest h ih =>
    intro b
    by_cases ht : (splitSep rest).tail = []
    · have hsingle := splitSep_tail_nil rest ht
      rw [splitSep_cons_nosep c rest h, hsingle]
      simp [lastSeg]
    · obtain ⟨s0, s', hs⟩ := List.exists_cons_of_ne_nil (splitSep_ne_nil rest)
      have hs' : s' ≠ [] := by
        intro hnil
        rw [hs, hnil] at ht
        simp at ht
      obtain ⟨s1, s2, hs2⟩ := List.exists_cons_of_ne_nil hs'
      rw [hs2] at hs
      have hrest : rest ≠ [] := by
        intro hnil
        rw [hnil, splitSep_nil] at hs
        simp at hs
      have hcond : ¬(c = '\n' ∧ (rest ++ b).head? = some '\n') := by
        intro ⟨hc, hh⟩
        apply h
        refine ⟨hc, ?_⟩
        cases rest with
        | nil => exact absurd rfl hrest
        | cons d r => simpa using hh
      simp only [List.cons_append]
      rw [splitSep_cons_nosep c (rest ++ b) hcond, splitSep_cons_nosep c rest h]
      rw [ih b, hs]
      simp only [List.headI, List.tail_cons, List.dropLast_cons₂, List.cons_append]
      rw [lastSeg_cons_cons, lastSeg_cons_cons]

/-- The trailing segment of a separator scan contains no separator: splitting
it again returns it unchanged.  This is why the JavaScript buffer never holds
an already-complete SSE block. -/
theorem splitSep_lastSeg (l : List Char) :
    splitSep (lastSeg (splitSep l)) = [lastSeg (splitSep l)] := by
  induction l using splitSep.induct with
  | case1 =>
    simp [splitSep_nil, lastSeg]
  | case2 c rest h ih =>
    obtain ⟨hc, hh⟩ := h
    cases rest with
    | nil => simp at hh
    | cons d r =>
      simp only [List.head?_cons, Option.some.injEq] at hh
      subst hc hh
      rw [splitSep_cons_sep r]
      obtain ⟨s0, s1, hs⟩ := List.exists_cons_of_ne_nil (splitSep_ne_nil r)
      simp only [List.tail_cons] at ih
      rw [hs] at ih ⊢
      rw [lastSeg_cons_cons]
      exact ih
  | case3 c rest h ih =>
    by_cases ht : (splitSep rest).tail = []
    · have hsingle := splitSep_tail_nil rest ht
      rw [splitSep_cons_nosep c rest h, hsingle]
      simp only [List.headI, List.tail_cons, lastSeg_singleton]
      rw [splitSep_cons_nosep c rest h, hsingle]
      simp
    · obtain ⟨s0, s', hs⟩ := List.exists_cons_of_ne_nil (splitSep_ne_nil rest)
      have hs' : s' ≠ [] := by
        intro hnil
        rw [hs, hnil] at ht
        simp at ht
      obtain ⟨s1, s2, hs2⟩ := List.exists_cons_of_ne_nil hs'
      rw [hs2] at hs
      rw [hs] at ih
      rw [splitSep_cons_nosep c rest h, hs]
      simp only [List.headI, List.tail_cons] at ih ⊢
      rw [lastSeg_cons_cons] at ih ⊢
      exact ih

/-! ### SSE block parsing: the regex and JSON dispatch of `sendChatMessageStream` -/

/-- `\w` of the JavaScript regex in `api.js`: ASCII letters, digits, underscore. -/
def isWordChar (c : Char) : Bool := c.isAlpha || c.isDigit || c = '_'

/-- `.` of the JavaScript regex (no `s` flag): any character except a line
terminator (modelled as newline or carriage return). -/
def isDotChar (c : Char) : Bool := !(c = '\n' || c = '\r')

/-- Matching the regex `event: (\w+)\ndata: (.+)` of `api.js` at the start of
the input.  The pattern's greedy `\w+` cannot usefully backtrack (a shortened
match leaves a word character where the pattern next requires a newline), and
nothing follows the final greedy `(.+)`, so maximal munch is faithful. -/
def matchAt : List Char → Option (List Char × List Char)
  | 'e' :: 'v' :: 'e' :: 'n' :: 't' :: ':' :: ' ' :: rest =>
    let w := rest.takeWhile isWordChar
    if w.isEmpty then none
    else
      match rest.dropWhile isWordChar with
      | '\n' :: 'd' :: 'a' :: 't' :: 'a' :: ':' :: ' ' :: r2 =>
        let d := r2.takeWhile isDotChar
        if d.isEmpty then none else some (w, d)
      | _ => none
  | _ => none

/-- `line.match(...)`: the leftmost position where the block matches the
regex, scanning positions left to right. -/
def findMatch : List Char → Option (List Char × List Char)
  | [] => none
  | c :: rest =>
    match matchAt (c :: rest) with
    | some p => some p
    | none => findMatch rest

/-- Processing of one complete SSE block by the loop body of
`sendChatMessageStream`, parameterised by the JSON parser (`JSON.parse`,
external to the repository): blank blocks are skipped (`if (!line.trim())
continue`), non-matching blocks are skipped, and a matching block whose data
fails to parse is skipped (the `catch` only logs).  A surviving block yields
the `(eventType, data)` pair passed to `onEvent`. -/
def handleBlock {J : Type} (jp : List Char → Option J) (block : List Char) :
    Option (List Char × J) :=
  if block.all Char.isWhitespace then none
  else
    match findMatch block with
    | none => none
    | some (et, ds) =>
      match jp ds with
      | none => none
      | some j => some (et, j)

/-- The reader loop of `sendChatMessageStream`: each received chunk is
appended to the carried buffer, the buffer is split on blank lines, all
segments but the last are handled as SSE blocks, and the last segment becomes
the new buffer.  The result is the ordered list of `onEvent` invocations. -/
def runStream {J : Type} (jp : List Char → Option J) :
    List Char → List (List Char) → List (List Char × J)
  | _, [] => []
  | buf, ch :: rest =>
    let segs := splitSep (buf ++ ch)
    segs.dropLast.filterMap (handleBlock jp) ++ runStream jp (lastSeg segs) rest

/-- `sendChatMessageStream` from `src/frontend/src/services/api.js`, viewed
as the sequence of `onEvent` calls produced for a given sequence of received
chunks, starting from the empty buffer. -/
def sendChatMessageStream {J : Type} (jp : List Char → Option J)
    (chunks : List (List Char)) : List (List Char × J) :=
  runStream jp [] chunks

theorem runStream_eq {J : Type} (jp : List Char → Option J) (chunks : List (List Char)) :
    ∀ buf, splitSep buf = [buf] →
      runStream jp buf chunks =
        ((splitSep (buf ++ chunks.flatten)).dropLast).filterMap (handleBlock jp) := by
  induction chunks with
  | nil =>
    intro buf hbuf
    simp [runStream, hbuf]
  | cons ch rest ih =>
    intro buf hbuf
    have hlast := splitSep_lastSeg (buf ++ ch)
    have hrec := ih (lastSeg (splitSep (buf ++ ch))) hlast
    simp only [runStream, List.flatten_cons]
    rw [hrec]
    rw [show buf ++ (ch ++ rest.flatten) = (buf ++ ch) ++ rest.flatten by simp]
    rw [splitSep_append (buf ++ ch) rest.flatten]
    rw [List.dropLast_append]
    have hne : splitSep (lastSeg (splitSep (buf ++ ch)) ++ rest.flatten) ≠ [] :=
      splitSep_ne_nil _
    simp only [List.isEmpty_iff]
    rw [if_neg hne, List.filterMap_append]

/-! ### `getAIResponse` from `src/frontend/src/components/ChatInterface.jsx` -/

/-- An action record delivered in the `done` event's data
(`data.actions` in `ChatInterface.jsx`). -/
structure ActionRec where
  type : List Char
  label : List Char
  deriving Repr, DecidableEq

/-- The claim-completeness record delivered by the backend
(`data.completeness`); only the percentage field is consumed by the
component. -/
structure Completeness where
  completeness_percentage : Int
  deriving Repr, DecidableEq

/-- The events dispatched by `sendChatMessageStream` to the `onEvent`
callback inside `getAIResponse` (lines 232-302 of `ChatInterface.jsx`). -/
inductive ChatEvent where
  | tool_start (tool : List Char)
  | tool_end
  | message (content : List Char)
  | done (actions : List ActionRec) (emailDraft : Option (List Char))
      (completeness : Option Completeness)
  | error
  deriving Repr, DecidableEq

/-- The placeholder assistant message created at the top of `getAIResponse`,
restricted to the fields the handler mutates. -/
structure AssistantMsg where
  content : List Char
  isStreaming : Bool
  toolExecuting : Option (List Char)
  actions : List ActionRec
  emailDraft : Option (List Char)
  deriving Repr, DecidableEq

/-- The state `getAIResponse` threads through the stream: the accumulated
`fullContent`, the placeholder message, and the component's `completeness`
state (`setCompleteness`). -/
structure TurnState where
  fullContent : List Char
  msg : AssistantMsg
  completeness : Option Completeness
  deriving Repr, DecidableEq

/-- The fixed apology text written by both the `error` event branch and the
`catch` block of `getAIResponse`. -/
def apologyText : List Char :=
  String.toList "Sorry, I encountered an error. Please try again."

/-- `action.type !== 'send_email'` filter applied in the `done` branch. -/
def sendEmailType : List Char := String.toList "send_email"

/-- The `onEvent` callback body of `getAIResponse`, one event at a time:
`tool_start` stores the executing tool, `tool_end` clears it, `message`
appends the token to `fullContent` and shows it, `done` finalizes the
message with filtered actions and metadata, `error` replaces the content
with the fixed apology and clears the streaming and tool flags. -/
def applyEvent (st : TurnState) (e : ChatEvent) : TurnState :=
  match e with
  | .tool_start t => { st with msg := { st.msg with toolExecuting := some t } }
  | .tool_end => { st with msg := { st.msg with toolExecuting := none } }
  | .message c =>
    let fc := st.fullContent ++ c
    { st with fullContent := fc, msg := { st.msg with content := fc } }
  | .done acts ed cp =>
    { st with
      completeness := match cp with | some c => some c | none => st.completeness,
      msg := { st.msg with
        content := st.fullContent,
        actions := acts.filter (fun a => a.type ≠ sendEmailType),
        emailDraft := ed,
        isStreaming := false,
        toolExecuting := none } }
  | .error =>
    { st with msg := { st.msg with
        content := apologyText,
        isStreaming := false,
        toolExecuting := none } }

/-- The placeholder message pushed before streaming begins
(`content: '', isStreaming: true`). -/
def initialTurnState : TurnState :=
  { fullContent := []
    msg := { content := [], isStreaming := true, toolExecuting := none,
             actions := [], emailDraft := none }
    completeness := none }

/-- How the awaited `sendChatMessageStream` call ends: it either resolves
after delivering its events, or throws after delivering a prefix of them
(`fetch` rejection, the `!response.ok` throw, or a mid-stream reader fault). -/
inductive StreamOutcome where
  | ok (evs : List ChatEvent)
  | thrown (evs : List ChatEvent)
  deriving Repr, DecidableEq

/-- `getAIResponse` from `ChatInterface.jsx` as a function of the stream
outcome: events are folded through the `onEvent` handler; if the awaited call
throws, the `catch` block overwrites the placeholder with the apology text
and clears the streaming and tool flags.  The function is total: no outcome
propagates an exception to the caller. -/
def getAIResponse (o : StreamOutcome) : TurnState :=
  match o with
  | .ok evs => evs.foldl applyEvent initialTurnState
  | .thrown evs =>
    let st := evs.foldl applyEvent initialTurnState
    { st with msg := { st.msg with
        content := apologyText,
        isStreaming := false,
        toolExecuting := none } }

/-! ### The completeness auto-trigger of `ChatInterface` -/

/-- `completeness?.completeness_percentage === 100` from the effect guard:
optional chaining yields `undefined` (never 100) on a null completeness. -/
def pred100 : Option Completeness → Bool
  | some c => c.completeness_percentage == 100
  | none => false

/-- The `useEffect` on `[completeness]` (lines 34-47 of
`ChatInterface.jsx`), run once per completeness update in order: if the new
completeness is 100 percent and the `triggered100Ref` guard is still unset,
the guard is set (for the rest of the component lifetime) and the automatic
draft-the-email prompt is issued.  Returns the indices of the updates at
which the prompt fires. -/
def triggerLoop (fired : Bool) (i : Nat) : List (Option Completeness) → List Nat
  | [] => []
  | u :: rest =>
    if pred100 u && !fired then i :: triggerLoop true (i + 1) rest
    else triggerLoop fired (i + 1) rest

/-- The indices of the completeness updates at which the automatic prompt
fires over a component lifetime, starting from an unset guard. -/
def triggerFires (updates : List (Option Completeness)) : List Nat :=
  triggerLoop false 0 updates

theorem triggerLoop_fired (l : List (Option Completeness)) :
    ∀ i, triggerLoop true i l = [] := by
  induction l with
  | nil => intro i; rfl
  | cons u rest ih =>
    intro i
    simp [triggerLoop, ih]

theorem triggerLoop_eq_findIdx (l : List (Option Completeness)) :
    ∀ i, triggerLoop false i l = (List.findIdx? pred100 l i).toList := by
  induction l with
  | nil => intro i; rfl
  | cons u rest ih =>
    intro i
    rw [List.findIdx?_cons]
    by_cases hp : pred100 u
    · simp [triggerLoop, hp, triggerLoop_fired]
    · simp [triggerLoop, hp, ih]

/-! ### Claim theorems for the frontend code under `src/` -/

/-- C9: for every sequence of received chunks, `sendChatMessageStream`
delivers to `onEvent` exactly the complete SSE blocks of the concatenated
stream (every segment before the last of the blank-line split), once each
and in stream order; the trailing incomplete segment stays buffered, and a
block whose data fails JSON parsing contributes nothing (`handleBlock`
returns `none`) without aborting the handling of the remaining blocks. -/
theorem sse_stream_delivers_complete_blocks_once {J : Type}
    (jp : List Char → Option J) (chunks : List (List Char)) :
    sendChatMessageStream jp chunks =
      ((splitSep chunks.flatten).dropLast).filterMap (handleBlock jp) := by
  have h := runStream_eq jp chunks [] splitSep_nil
  simpa [sendChatMessageStream] using h

/-- C8: whenever `getAIResponse` fails — the awaited streaming call throws
(after any prefix of events), or the stream delivers an `error` event as its
final event — the function still returns a final state (it is total, so no
exception reaches the caller), and the placeholder assistant message is
finalized with the fixed apology text, with `isStreaming` false and
`toolExecuting` cleared. -/
theorem getAIResponse_failure_finalizes_apology (o : StreamOutcome)
    (h : (∃ evs, o = .thrown evs) ∨ (∃ evs, o = .ok (evs ++ [.error]))) :
    (getAIResponse o).msg.content = apologyText ∧
    (getAIResponse o).msg.isStreaming = false ∧
    (getAIResponse o).msg.toolExecuting = none := by
  rcases h with ⟨evs, rfl⟩ | ⟨evs, rfl⟩
  · simp [getAIResponse]
  · simp [getAIResponse, List.foldl_append, applyEvent]

/-- Witness for C8 at a concrete failing stream: two tokens arrive, then the
stream reports an error. -/
theorem getAIResponse_failure_finalizes_apology_witness :
    (getAIResponse (.ok [.message (String.toList "Hello"), .error])).msg.content
        = apologyText ∧
    (getAIResponse (.ok [.message (String.toList "Hello"),
        .error])).msg.isStreaming = false ∧
    (getAIResponse (.ok [.message (String.toList "Hello"),
        .error])).msg.toolExecuting = none :=
  getAIResponse_failure_finalizes_apology _
    (Or.inr ⟨[.message (String.toList "Hello")], rfl⟩)

/-- C10: over a whole component lifetime, the automatic draft-the-email
prompt fires exactly at the first completeness update whose percentage
equals 100 — and never again, even if a later update reaches 100 — so it is
issued at most once. -/
theorem auto_email_prompt_fires_at_most_once
    (updates : List (Option Completeness)) :
    triggerFires updates = (List.findIdx? pred100 updates).toList ∧
    (triggerFires updates).length ≤ 1 := by
  have h := triggerLoop_eq_findIdx updates 0
  refine ⟨h, ?_⟩
  rw [show triggerFires updates = triggerLoop false 0 updates from rfl, h]
  cases List.findIdx? pred100 updates 0 <;> simp

/-! ## Part II: the legal-reference retrieval engine, modelled from the spec

The engine's Python sources (the FAISS index build and query scripts named in
`backend/data/aikosh/README.md`) are not in the checked-out tree; every
definition in this part is modelled from the specification's contracts, as
its doc comment states. -/

/-- Modelled from the spec: a fixed-dimension numeric embedding vector
(§3 Embedding), with exact rational components in place of floats. -/
abbrev Vec := List ℚ

/-- Modelled from the spec: the dot product underlying cosine similarity. -/
def dot (v w : Vec) : ℚ := (List.zipWith (· * ·) v w).sum

/-- Modelled from the spec: the squared Euclidean norm of a vector. -/
def normSq (v : Vec) : ℚ := dot v v

/-- Modelled from the spec (§3 Chunk): a contiguous span of the extracted
text with id, source character offset range, text content, and
nearest-preceding section label (none before the first heading). -/
structure Chunk where
  id : ℕ
  startOff : ℕ
  endOff : ℕ
  text : List Char
  sectionLabel : Option (List Char)
  deriving Repr, DecidableEq

/-- Modelled from the spec (§3 Index): one indexed record, a chunk paired
with its embedding vector. -/
structure Entry where
  chunk : Chunk
  vec : Vec
  deriving Repr, DecidableEq

/-- Modelled from the spec (§3 Index): a complete, immutable `READY` index. -/
structure ReadyIndex where
  entries : List Entry
  deriving Repr, DecidableEq

/-- Modelled from the spec (§3 Index lifecycle): the state the query path
observes — `EMPTY`, `BUILDING`, or a complete `READY` index. -/
inductive IndexState where
  | empty
  | building
  | ready (idx : ReadyIndex)
  deriving Repr, DecidableEq

/-- Modelled from the spec: the exact representation of a candidate's cosine
score against the query — the dot product `s` with the query and the
positive squared norm `n` of the entry vector, denoting the real value
`s / (‖q‖·√n)`.  Keeping `(s, n)` instead of a float allows exact,
decidable comparisons. -/
structure ScoreKey where
  s : ℚ
  n : ℚ
  npos : 0 < n

/-- Modelled from the spec: the score key of an entry vector `v` against a
query `q`; a degenerate (zero) vector is given score zero. -/
def cosKey (q v : Vec) : ScoreKey :=
  if h : 0 < normSq v then ⟨dot q v, normSq v, h⟩ else ⟨0, 1, one_pos⟩

/-- Modelled from the spec ("ranked by cosine similarity"): decides
`s₁/√n₁ ≥ s₂/√n₂` (the query-norm factor cancels) exactly, by sign analysis
and cross-multiplied squares. -/
def cosGe (a b : ScoreKey) : Bool :=
  if 0 ≤ a.s then
    if 0 ≤ b.s then decide (b.s ^ 2 * a.n ≤ a.s ^ 2 * b.n) else true
  else
    if 0 ≤ b.s then false else decide (a.s ^ 2 * b.n ≤ b.s ^ 2 * a.n)

theorem cosGe_total (a b : ScoreKey) : cosGe a b || cosGe b a := by
  unfold cosGe
  by_cases ha : 0 ≤ a.s <;> by_cases hb : 0 ≤ b.s <;>
    simp [ha, hb] <;> exact le_total _ _

theorem cosGe_trans (a b c : ScoreKey) (hab : cosGe a b) (hbc : cosGe b c) :
    cosGe a c := by
  unfold cosGe at hab hbc ⊢
  by_cases ha : 0 ≤ a.s <;> by_cases hb : 0 ≤ b.s <;> by_cases hc : 0 ≤ c.s <;>
    simp [ha, hb, hc] at hab hbc ⊢
  · -- all three scores nonnegative
    by_cases hb0 : b.s = 0
    · rw [hb0] at hab hbc
      simp at hab hbc
      have hc2 : c.s ^ 2 ≤ 0 := by
        have h0 : c.s ^ 2 * b.n ≤ 0 * b.n := by rw [zero_mul]; exact hbc
        exact le_of_mul_le_mul_right h0 b.npos
      have hcs : c.s ^ 2 = 0 := le_antisymm hc2 (sq_nonneg _)
      rw [hcs, zero_mul]
      exact mul_nonneg (sq_nonneg _) c.npos.le
    · have hb2 : 0 < b.s ^ 2 := by positivity
      have key : b.s ^ 2 * (c.s ^ 2 * a.n) ≤ b.s ^ 2 * (a.s ^ 2 * c.n) := by
        nlinarith [mul_le_mul_of_nonneg_left hab (sq_nonneg c.s),
          mul_le_mul_of_nonneg_left hbc (sq_nonneg a.s)]
      exact le_of_mul_le_mul_left key hb2
  · -- all three negative
    have hb2 : 0 < b.s ^ 2 := by
      have hbne : b.s ≠ 0 := by intro h0; rw [h0] at hb; exact hb le_rfl
      positivity
    have key : b.s ^ 2 * (a.s ^ 2 * c.n) ≤ b.s ^ 2 * (c.s ^ 2 * a.n) := by
      nlinarith [mul_le_mul_of_nonneg_left hab (sq_nonneg c.s),
        mul_le_mul_of_nonneg_left hbc (sq_nonneg a.s)]
    exact le_of_mul_le_mul_left key hb2

/-- Modelled from the spec: a ranked search candidate — original chunk
position in the index, exact score key against the query, and the entry. -/
abbrev Cand := ℕ × ScoreKey × Entry

/-- Modelled from the spec (§3 RetrievalResult): the ranking order — strictly
greater cosine similarity first, ties broken by original chunk position
(earlier in the document wins). -/
def rankLe (a b : Cand) : Bool :=
  cosGe a.2.1 b.2.1 && (!(cosGe b.2.1 a.2.1) || decide (a.1 ≤ b.1))

theorem rankLe_total (a b : Cand) : rankLe a b || rankLe b a := by
  unfold rankLe
  by_cases h1 : cosGe a.2.1 b.2.1 <;> by_cases h2 : cosGe b.2.1 a.2.1 <;>
    simp [h1, h2]
  · exact le_total a.1 b.1
  · have htot := cosGe_total a.2.1 b.2.1
    simp [h1, h2] at htot

theorem rankLe_trans (a b c : Cand) (hab : rankLe a b) (hbc : rankLe b c) :
    rankLe a c := by
  unfold rankLe at hab hbc ⊢
  simp only [Bool.and_eq_true, Bool.or_eq_true, Bool.not_eq_true',
    decide_eq_true_eq] at hab hbc ⊢
  obtain ⟨hab1, hab2⟩ := hab
  obtain ⟨hbc1, hbc2⟩ := hbc
  refine ⟨cosGe_trans _ _ _ hab1 hbc1, ?_⟩
  rcases Bool.eq_false_or_eq_true (cosGe c.2.1 a.2.1) with hca | hca
  · right
    have hba : cosGe b.2.1 a.2.1 := cosGe_trans _ _ _ hbc1 hca
    have hcb : cosGe c.2.1 b.2.1 := cosGe_trans _ _ _ hca hab1
    rcases hab2 with h | h
    · rw [hba] at h; cases h
    · rcases hbc2 with h' | h'
      · rw [hcb] at h'; cases h'
      · exact le_trans h h'
  · exact Or.inl hca

/-- The real number a `ScoreKey` denotes: `s / √n`, which is the cosine
similarity scaled by the (positive, query-independent-per-search) factor
`‖q‖`; it orders candidates exactly as cosine similarity does. -/
noncomputable def realScore (key : ScoreKey) : ℝ :=
  (key.s : ℝ) / Real.sqrt (key.n : ℝ)

/-- The decidable comparator agrees with the real cosine-score ordering. -/
theorem cosGe_iff_realScore (a b : ScoreKey) :
    cosGe a b = true ↔ realScore b ≤ realScore a := by
  have han : (0:ℝ) < (a.n : ℝ) := by exact_mod_cast a.npos
  have hbn : (0:ℝ) < (b.n : ℝ) := by exact_mod_cast b.npos
  have hsa : (0:ℝ) < Real.sqrt (a.n : ℝ) := Real.sqrt_pos.mpr han
  have hsb : (0:ℝ) < Real.sqrt (b.n : ℝ) := Real.sqrt_pos.mpr hbn
  unfold cosGe realScore
  rcases le_or_lt 0 a.s with has | has <;> rcases le_or_lt 0 b.s with hbs | hbs
  · rw [if_pos has, if_pos hbs]
    simp only [decide_eq_true_eq]
    rw [div_le_div_iff₀ hsb hsa, ← @Rat.cast_le _ _ ℝ _]
    push_cast
    have key1 : ((b.s : ℝ) * Real.sqrt (a.n : ℝ)) ^ 2
        = (b.s : ℝ) ^ 2 * (a.n : ℝ) := by
      rw [mul_pow, Real.sq_sqrt han.le]
    have key2 : ((a.s : ℝ) * Real.sqrt (b.n : ℝ)) ^ 2
        = (a.s : ℝ) ^ 2 * (b.n : ℝ) := by
      rw [mul_pow, Real.sq_sqrt hbn.le]
    rw [← key1, ← key2]
    exact pow_le_pow_iff_left₀
      (mul_nonneg (by exact_mod_cast hbs) hsa.le)
      (mul_nonneg (by exact_mod_cast has) hsb.le)
      (by norm_num)
  · rw [if_pos has, if_neg (not_le.mpr hbs)]
    refine iff_of_true rfl ?_
    exact le_trans (div_neg_of_neg_of_pos (by exact_mod_cast hbs) hsb).le
      (div_nonneg (by exact_mod_cast has) hsa.le)
  · rw [if_neg (not_le.mpr has), if_pos hbs]
    refine iff_of_false (by simp) ?_
    rw [not_le]
    exact lt_of_lt_of_le (div_neg_of_neg_of_pos (by exact_mod_cast has) hsa)
      (div_nonneg (by exact_mod_cast hbs) hsb.le)
  · rw [if_neg (not_le.mpr has), if_neg (not_le.mpr hbs)]
    simp only [decide_eq_true_eq]
    rw [div_le_div_iff₀ hsb hsa, ← @Rat.cast_le _ _ ℝ _]
    push_cast
    have key1 : ((-(b.s : ℝ)) * Real.sqrt (a.n : ℝ)) ^ 2
        = (b.s : ℝ) ^ 2 * (a.n : ℝ) := by
      rw [mul_pow, Real.sq_sqrt han.le, neg_pow]
      ring
    have key2 : ((-(a.s : ℝ)) * Real.sqrt (b.n : ℝ)) ^ 2
        = (a.s : ℝ) ^ 2 * (b.n : ℝ) := by
      rw [mul_pow, Real.sq_sqrt hbn.le, neg_pow]
      ring
    have hBneg : ((b.s : ℝ) * Real.sqrt (a.n : ℝ)
          ≤ (a.s : ℝ) * Real.sqrt (b.n : ℝ))
        ↔ (-(a.s : ℝ)) * Real.sqrt (b.n : ℝ)
          ≤ (-(b.s : ℝ)) * Real.sqrt (a.n : ℝ) := by
      rw [neg_mul, neg_mul, neg_le_neg_iff]
    rw [hBneg, ← key1, ← key2]
    exact pow_le_pow_iff_left₀
      (mul_nonneg (neg_nonneg.mpr (by exact_mod_cast has.le)) hsb.le)
      (mul_nonneg (neg_nonneg.mpr (by exact_mod_cast hbs.le)) hsa.le)
      (by norm_num)

/-- Modelled from the spec (§4.4): the scored candidate list of an index
against a query, tagged with original chunk positions. -/
def candidates (q : Vec) (idx : ReadyIndex) : List Cand :=
  idx.entries.enum.map (fun p => (p.1, cosKey q p.2.vec, p.2))

/-- Modelled from the spec (§4.4): `search(query_vector, k)` — rank all
entries by cosine similarity (ties by original chunk order) and return the
first `k`. -/
def search (q : Vec) (k : ℕ) (idx : ReadyIndex) : List Cand :=
  ((candidates q idx).mergeSort rankLe).take k

/-- C1: `search(q, k)` returns `min k n` entries (at most `k`, and fewer
than `k` only when the index holds fewer than `k` chunks), pairwise ordered
by the ranking relation — non-increasing cosine similarity with ties broken
by original chunk position, the earlier chunk first — hence with pairwise
non-increasing real cosine scores, and every returned candidate is a
candidate of the index. -/
theorem search_returns_topk_sorted (q : Vec) (k : ℕ) (idx : ReadyIndex) :
    (search q k idx).length = min k idx.entries.length ∧
    List.Pairwise (fun a b => rankLe a b = true) (search q k idx) ∧
    List.Pairwise (fun a b => realScore b.2.1 ≤ realScore a.2.1)
      (search q k idx) ∧
    ∀ cand ∈ search q k idx, cand ∈ candidates q idx := by
  have hperm := List.mergeSort_perm (candidates q idx) rankLe
  have hsorted := @List.sorted_mergeSort _ rankLe
    (fun a b c hab hbc => rankLe_trans a b c hab hbc)
    (fun a b => rankLe_total a b) (candidates q idx)
  have hpair : List.Pairwise (fun a b => rankLe a b = true) (search q k idx) :=
    List.Pairwise.sublist (List.take_sublist k _) hsorted
  refine ⟨?_, hpair, ?_, ?_⟩
  · rw [search, List.length_take, hperm.length_eq]
    simp [candidates]
  · refine hpair.imp (fun hr => ?_)
    simp only [rankLe, Bool.and_eq_true] at hr
    exact (cosGe_iff_realScore _ _).mp hr.1
  · intro cand hc
    exact hperm.subset (List.mem_of_mem_take hc)

/-! ### Chunker and build pipeline -/

/-- Modelled from the spec (§4.2): the section label of a chunk starting at
`start` is the label of the closest heading marker at or before `start`
(markers listed in offset order); none before the first heading. -/
def labelAt (marks : List (ℕ × List Char)) (start : ℕ) : Option (List Char) :=
  ((marks.filter (fun m => m.1 ≤ start)).getLast?).map (fun m => m.2)

/-- Modelled from the spec (§4.2): the `j`-th sliding-window chunk of length
`L`, starting at offset `start`, clipped to the end of the text; its id is
its sequence position. -/
def mkChunk (text : List Char) (marks : List (ℕ × List Char)) (L j start : ℕ) :
    Chunk :=
  { id := j
    startOff := start
    endOff := min (start + L) text.length
    text := (text.drop start).take L
    sectionLabel := labelAt marks start }

/-- Modelled from the spec (§4.2): number of sliding windows of stride
`stride` covering `len` characters (zero for empty text). -/
def numWindows (len stride : ℕ) : ℕ := (len + stride - 1) / stride

/-- Modelled from the spec (§4.2): the Chunker — an ordered sequence of
chunks produced by a sliding window of length `L` and overlap `O`
(stride `L - O`), ids derived from sequence position. -/
def mkChunks (text : List Char) (marks : List (ℕ × List Char)) (L O : ℕ) :
    List Chunk :=
  (List.range (numWindows text.length (L - O))).map
    (fun j => mkChunk text marks L j (j * (L - O)))

/-- Modelled from the spec (§7 error taxonomy): build-time failures. -/
inductive BuildError where
  | extraction
  | chunking
  | embedding
  deriving Repr, DecidableEq

/-- Modelled from the spec (§4.3): embed each chunk's text in order; the
whole batch fails if any single embedding call terminally fails. -/
def traverseEmbed (embed : List Char → Option Vec) : List Chunk → Option (List Entry)
  | [] => some []
  | c :: rest =>
    match embed c.text, traverseEmbed embed rest with
    | some v, some es => some (⟨c, v⟩ :: es)
    | _, _ => none

/-- Modelled from the spec (§2, §4.4, §7): the build pipeline
Extractor → Chunker → Embedder → Index.  Extraction failure is fatal to the
attempt; a malformed configuration (overlap ≥ length) fails fast with
`ChunkingError`; a terminal embedding failure aborts the build. -/
def build (extract : Option (List Char × List (ℕ × List Char))) (L O : ℕ)
    (embed : List Char → Option Vec) : Except BuildError ReadyIndex :=
  match extract with
  | none => .error .extraction
  | some (text, marks) =>
    if L ≤ O then .error .chunking
    else
      match traverseEmbed embed (mkChunks text marks L O) with
      | none => .error .embedding
      | some entries => .ok ⟨entries⟩

theorem traverseEmbed_chunks (embed : List Char → Option Vec) :
    ∀ (cs : List Chunk) (es : List Entry), traverseEmbed embed cs = some es →
      es.map (fun e => e.chunk) = cs := by
  intro cs
  induction cs with
  | nil =>
    intro es h
    simp [traverseEmbed] at h
    simp [← h]
  | cons c rest ih =>
    intro es h
    simp only [traverseEmbed] at h
    cases hv : embed c.text with
    | none => rw [hv] at h; simp at h
    | some v =>
      rw [hv] at h
      cases ht : traverseEmbed embed rest with
      | none => rw [ht] at h; simp at h
      | some es' =>
        rw [ht] at h
        simp only [Option.some.injEq] at h
        subst h
        simp [ih es' ht]

theorem build_ok_chunks (text : List Char) (marks : List (ℕ × List Char))
    (L O : ℕ) (embed : List Char → Option Vec) (idx : ReadyIndex)
    (h : build (some (text, marks)) L O embed = .ok idx) :
    idx.entries.map (fun e => e.chunk) = mkChunks text marks L O ∧ O < L := by
  simp only [build] at h
  by_cases hLO : L ≤ O
  · rw [if_pos hLO] at h; cases h
  · rw [if_neg hLO] at h
    push_neg at hLO
    refine ⟨?_, hLO⟩
    cases ht : traverseEmbed embed (mkChunks text marks L O) with
    | none => rw [ht] at h; cases h
    | some es =>
      rw [ht] at h
      simp only [Except.ok.injEq] at h
      subst h
      exact traverseEmbed_chunks embed _ es ht

/-- The invariant of C3 on one pair of consecutive chunks: offsets are
non-decreasing and the character overlap is at most the configured `O`. -/
def chunkInv (O : ℕ) (c₁ c₂ : Chunk) : Prop :=
  c₁.startOff ≤ c₂.startOff ∧ c₁.endOff ≤ c₂.startOff + O

theorem mkChunks_chain (text : List Char) (marks : List (ℕ × List Char))
    (L O : ℕ) (hO : O < L) :
    List.Chain' (chunkInv O) (mkChunks text marks L O) := by
  rw [mkChunks, List.chain'_map]
  have hstride : 0 < L - O := by omega
  cases hn : numWindows text.length (L - O) with
  | zero => simp
  | succ n =>
    rw [List.chain'_range_succ]
    intro m _
    constructor
    · exact Nat.mul_le_mul_right _ (Nat.le_succ m)
    · simp only [mkChunk]
      have h1 : m * (L - O) + L = (m + 1) * (L - O) + O := by
        have : (m + 1) * (L - O) = m * (L - O) + (L - O) := by ring
        omega
      calc min (m * (L - O) + L) text.length ≤ m * (L - O) + L :=
            Nat.min_le_left _ _
        _ = (m + 1) * (L - O) + O := h1

/-- C3: for any successfully built index, the chunk sequence stored in the
index is exactly the Chunker's output for the configured `L` and `O`
(with `0 ≤ O < L` enforced at build start), and along that sequence source
offset ranges are monotonically non-decreasing while the character overlap
between consecutive chunks never exceeds `O`. -/
theorem built_index_chunk_invariant (text : List Char)
    (marks : List (ℕ × List Char)) (L O : ℕ) (embed : List Char → Option Vec)
    (idx : ReadyIndex)
    (h : build (some (text, marks)) L O embed = .ok idx) :
    idx.entries.map (fun e => e.chunk) = mkChunks text marks L O ∧
    O < L ∧
    List.Chain' (chunkInv O) (idx.entries.map (fun e => e.chunk)) := by
  obtain ⟨hchunks, hO⟩ := build_ok_chunks text marks L O embed idx h
  exact ⟨hchunks, hO, hchunks ▸ mkChunks_chain text marks L O hO⟩

/-- Witness for C3 at a concrete build: a 12-character text, one heading
marker, window length 5, overlap 2, constant embedder. -/
theorem built_index_chunk_invariant_witness :
    (ReadyIndex.mk (List.map (fun c => Entry.mk c [1])
        (mkChunks (String.toList "abcdefghijkl") [(0, String.toList "S1")] 5 2))).entries.map
          (fun e => e.chunk)
        = mkChunks (String.toList "abcdefghijkl") [(0, String.toList "S1")] 5 2 ∧
    2 < 5 ∧
    List.Chain' (chunkInv 2)
      ((ReadyIndex.mk (List.map (fun c => Entry.mk c [1])
        (mkChunks (String.toList "abcdefghijkl") [(0, String.toList "S1")] 5 2))).entries.map
          (fun e => e.chunk)) :=
  built_index_chunk_invariant (String.toList "abcdefghijkl")
    [(0, String.toList "S1")] 5 2 (fun _ => some [1]) _ (by rfl)

/-- C6: the build pipeline is deterministic and idempotent — two builds from
the same source and configuration yield literally the same index (hence
identical chunk count, ids, and citations), and chunk ids are derived from
sequence position: the stored ids are exactly `0, 1, …, n-1`. -/
theorem build_deterministic_ids_positional (text : List Char)
    (marks : List (ℕ × List Char)) (L O : ℕ) (embed : List Char → Option Vec)
    (idx₁ idx₂ : ReadyIndex)
    (h₁ : build (some (text, marks)) L O embed = .ok idx₁)
    (h₂ : build (some (text, marks)) L O embed = .ok idx₂) :
    idx₁ = idx₂ ∧
    idx₁.entries.map (fun e => e.chunk.id) = List.range idx₁.entries.length := by
  have heq : idx₁ = idx₂ := by
    rw [h₁] at h₂
    exact Except.ok.inj h₂
  refine ⟨heq, ?_⟩
  obtain ⟨hchunks, -⟩ := build_ok_chunks text marks L O embed idx₁ h₁
  have hlen : idx₁.entries.length = (mkChunks text marks L O).length := by
    rw [← hchunks, List.length_map]
  have hids : idx₁.entries.map (fun e => e.chunk.id)
      = (mkChunks text marks L O).map (fun c => c.id) := by
    rw [← hchunks, List.map_map]
    rfl
  rw [hids, hlen]
  simp only [mkChunks, List.map_map, List.length_map, List.length_range]
  have hfun : ((fun c => c.id) ∘ fun j => mkChunk text marks L j (j * (L - O)))
      = fun j : ℕ => j := rfl
  rw [hfun]
  exact List.map_id' _

/-- Witness for C6 at the same concrete build as the C3 witness. -/
theorem build_deterministic_ids_positional_witness :
    (ReadyIndex.mk (List.map (fun c => Entry.mk c [1])
        (mkChunks (String.toList "abcdefghijkl") [(0, String.toList "S1")] 5 2)))
      = (ReadyIndex.mk (List.map (fun c => Entry.mk c [1])
        (mkChunks (String.toList "abcdefghijkl") [(0, String.toList "S1")] 5 2))) ∧
    (ReadyIndex.mk (List.map (fun c => Entry.mk c [1])
        (mkChunks (String.toList "abcdefghijkl") [(0, String.toList "S1")] 5 2))).entries.map
          (fun e => e.chunk.id)
      = List.range (ReadyIndex.mk (List.map (fun c => Entry.mk c [1])
        (mkChunks (String.toList "abcdefghijkl") [(0, String.toList "S1")] 5 2))).entries.length :=
  build_deterministic_ids_positional (String.toList "abcdefghijkl")
    [(0, String.toList "S1")] 5 2 (fun _ => some [1]) _ _ (by rfl) (by rfl)

/-! ### Persistence -/

/-- Modelled from the spec (§6): the persisted index layout — a vector store
plus a metadata sidecar, one record per chunk. -/
structure Blob where
  vecs : List Vec
  meta : List Chunk
  deriving Repr, DecidableEq

/-- Modelled from the spec (§7): `IndexCorruptError`, raised when persisted
metadata fails the integrity check on load. -/
inductive LoadError where
  | indexCorrupt
  deriving Repr, DecidableEq

/-- Modelled from the spec (§4.4): `persist` serialises the index as
parallel vector and metadata lists. -/
def persistBlob (idx : ReadyIndex) : Blob :=
  ⟨idx.entries.map (fun e => e.vec), idx.entries.map (fun e => e.chunk)⟩

/-- Modelled from the spec (§4.4): `load` checks the vector-count /
metadata-count integrity invariant, then re-pairs the records. -/
def loadBlob (b : Blob) : Except LoadError ReadyIndex :=
  if b.vecs.length = b.meta.length then
    .ok ⟨List.zipWith (fun c v => Entry.mk c v) b.meta b.vecs⟩
  else .error .indexCorrupt

/-- Modelled from the spec (§6): the on-disk store, a map from paths to
persisted blobs. -/
abbrev FileStore := List Char → Option Blob

/-- Modelled from the spec (§4.4): `persist(path)` writes the serialised
index at the given path. -/
def persistAt (fs : FileStore) (p : List Char) (idx : ReadyIndex) : FileStore :=
  fun q => if q = p then some (persistBlob idx) else fs q

/-- Modelled from the spec (§4.4): `load(path)` reads and validates the blob
at the given path; a missing file is a corrupt index. -/
def loadAt (fs : FileStore) (p : List Char) : Except LoadError ReadyIndex :=
  match fs p with
  | some b => loadBlob b
  | none => .error .indexCorrupt

theorem zipWith_chunk_vec (es : List Entry) :
    List.zipWith (fun c v => Entry.mk c v)
      (es.map (fun e => e.chunk)) (es.map (fun e => e.vec)) = es := by
  induction es with
  | nil => rfl
  | cons e rest ih => simp [ih]

/-- C2: the persist/load round-trip law — persisting a built index at any
path of any store and reloading from that path recovers the very same
index, so the search results for every query vector and every `k` are
identical to those of the original index. -/
theorem persist_load_roundtrip (fs : FileStore) (p : List Char)
    (idx : ReadyIndex) :
    loadAt (persistAt fs p idx) p = .ok idx ∧
    ∀ (q : Vec) (k : ℕ),
      (loadAt (persistAt fs p idx) p).map (fun i => search q k i)
        = .ok (search q k idx) := by
  have hfs : persistAt fs p idx p = some (persistBlob idx) := by
    simp [persistAt]
  have hstep : loadAt (persistAt fs p idx) p = loadBlob (persistBlob idx) := by
    unfold loadAt
    rw [hfs]
  have hblob : loadBlob (persistBlob idx) = .ok idx := by
    unfold loadBlob
    rw [if_pos (by simp [persistBlob])]
    simp only [persistBlob, Except.ok.injEq]
    exact congrArg ReadyIndex.mk (zipWith_chunk_vec idx.entries)
  have hload := hstep.trans hblob
  exact ⟨hload, fun q k => by rw [hload]; rfl⟩

/-! ### Retriever and query entry point -/

/-- Modelled from the spec (§5): bounded retry of the query-embedding call —
`attempt i` is the outcome of the `i`-th attempt (none on timeout or model
fault); the first success within the retry budget wins, and exhausting the
budget yields none. -/
def retryEmbed (attempt : ℕ → Option Vec) : ℕ → Option Vec
  | 0 => none
  | n + 1 =>
    match retryEmbed attempt n with
    | some v => some v
    | none => attempt n

/-- Modelled from the spec (§6): one returned context item —
`{text, section_label, score}`. -/
structure Hit where
  text : List Char
  section_label : Option (List Char)
  score : ScoreKey

/-- Modelled from the spec (§4.5): decides `score ≥ min_score`, i.e.
`s / (√(normSq q)·√n) ≥ t`, exactly by sign analysis and squaring. -/
def passesMin (q : Vec) (key : ScoreKey) (t : ℚ) : Bool :=
  if 0 ≤ key.s then (t ≤ 0) || decide (t ^ 2 * (normSq q * key.n) ≤ key.s ^ 2)
  else (t < 0) && decide (key.s ^ 2 ≤ t ^ 2 * (normSq q * key.n))

/-- Modelled from the spec (§4.5): `retrieve(query_text, k, min_score)` —
embed the query (with bounded retry), search the current `READY` index for
the top `k`, drop entries below `min_score`, and attach each survivor's text
and section label.  If the index is not `READY`, or query embedding
terminally fails, the result is empty; the function is total, so no failure
propagates to the caller. -/
def retrieve (attempt : List Char → ℕ → Option Vec) (retries : ℕ)
    (state : IndexState) (qtext : List Char) (k : ℕ) (minScore : ℚ) :
    List Hit :=
  match state with
  | .ready idx =>
    match retryEmbed (attempt qtext) retries with
    | none => []
    | some q =>
      ((search q k idx).filter (fun cand => passesMin q cand.2.1 minScore)).map
        (fun cand => ⟨cand.2.2.chunk.text, cand.2.2.chunk.sectionLabel, cand.2.1⟩)
  | _ => []

/-- C4: `retrieve` returns an empty result — raising nothing, as it is a
total function — whenever query embedding terminally fails (every retry
attempt exhausted) or the index is not `READY` (still `BUILDING` or
`EMPTY`). -/
theorem retrieve_degraded_empty (attempt : List Char → ℕ → Option Vec)
    (retries : ℕ) (state : IndexState) (qtext : List Char) (k : ℕ)
    (minScore : ℚ)
    (h : retryEmbed (attempt qtext) retries = none ∨
      state = .building ∨ state = .empty) :
    retrieve attempt retries state qtext k minScore = [] := by
  cases state with
  | empty => rfl
  | building => rfl
  | ready idx =>
    rcases h with hemb | hst | hst
    · unfold retrieve
      rw [hemb]
    · cases hst
    · cases hst

/-- Witness for C4: the embedding service times out on all three retry
attempts while a `READY` index is available. -/
theorem retrieve_degraded_empty_witness :
    retrieve (fun _ _ => none) 3 (.ready ⟨[]⟩) (String.toList "interest") 5 0
      = [] :=
  retrieve_degraded_empty (fun _ _ => none) 3 (.ready ⟨[]⟩)
    (String.toList "interest") 5 0 (Or.inl rfl)

/-- Modelled from the spec (§7): `QueryError` — malformed query parameters,
surfaced synchronously as a contract violation. -/
inductive QueryError where
  | negativeK
  deriving Repr, DecidableEq

/-- Modelled from the spec (§6): the query entry point
`get_relevant_context(query_text, k, min_score)` — the sole interface the
application uses.  It raises `QueryError` exactly on a contract violation
(negative `k`); otherwise it returns the (possibly empty) retrieval
result. -/
def get_relevant_context (attempt : List Char → ℕ → Option Vec) (retries : ℕ)
    (state : IndexState) (qtext : List Char) (k : ℤ) (minScore : ℚ) :
    Except QueryError (List Hit) :=
  if k < 0 then .error .negativeK
  else .ok (retrieve attempt retries state qtext k.toNat minScore)

/-- C5: the query entry point errors exactly when its parameters violate the
calling contract (negative `k`); on every well-formed input — including
queries with no relevant passages — it returns a (possibly empty) result
list and never raises. -/
theorem get_relevant_context_error_iff (attempt : List Char → ℕ → Option Vec)
    (retries : ℕ) (state : IndexState) (qtext : List Char) (k : ℤ)
    (minScore : ℚ) :
    (∃ e, get_relevant_context attempt retries state qtext k minScore
        = .error e) ↔ k < 0 := by
  unfold get_relevant_context
  by_cases hk : k < 0
  · rw [if_pos hk]
    exact iff_of_true ⟨.negativeK, rfl⟩ hk
  · simp [hk]

/-! ### Index lifecycle state machine -/

/-- Modelled from the spec (§4, state machine): the lifecycle phase of the
index version currently under construction. -/
inductive Phase where
  | empty
  | building
  deriving Repr, DecidableEq

/-- Modelled from the spec (§5, §6): the process-wide retrieval state — the
last-known-good `READY` index serving queries (if any), and the phase of the
build in progress. -/
structure SystemState where
  active : Option ReadyIndex
  phase : Phase
  deriving Repr, DecidableEq

/-- Modelled from the spec (§4, state machine): build lifecycle events —
start a build, complete it (atomic swap of the serving pointer), or fail. -/
inductive BuildEvent where
  | start
  | complete (idx : ReadyIndex)
  | fail
  deriving Repr, DecidableEq

/-- Modelled from the spec (§4, state machine): `EMPTY --build--> BUILDING
--complete--> READY` with atomic swap; `BUILDING --failure--> EMPTY` with
the previous `READY` index left authoritative. -/
def stepBuild (s : SystemState) (e : BuildEvent) : SystemState :=
  match e with
  | .start => { s with phase := .building }
  | .complete idx => { active := some idx, phase := .empty }
  | .fail => { s with phase := .empty }

/-- The index state the query pipeline observes (`retrieve` serves from the
last-known-good `READY` index whenever one exists). -/
def servingState (s : SystemState) : IndexState :=
  match s.active with
  | some idx => .ready idx
  | none =>
    match s.phase with
    | .building => .building
    | .empty => .empty

theorem servingState_some (s : SystemState) (idx : ReadyIndex)
    (h : s.active = some idx) : servingState s = .ready idx := by
  unfold servingState
  rw [h]

/-- C7: from every reachable system state, a failure during `BUILDING` sends
the index under construction to `EMPTY` while the previously `READY` index,
if any, stays the authoritative serving index unchanged — every build-time
error leaves the system in its last-known-good state. -/
theorem build_failure_keeps_last_known_good (evs : List BuildEvent)
    (s₀ : SystemState) :
    (stepBuild (evs.foldl stepBuild s₀) .fail).active
        = (evs.foldl stepBuild s₀).active ∧
    (stepBuild (evs.foldl stepBuild s₀) .fail).phase = .empty ∧
    ∀ idx, (evs.foldl stepBuild s₀).active = some idx →
      servingState (stepBuild (evs.foldl stepBuild s₀) .fail)
        = .ready idx := by
  refine ⟨rfl, rfl, ?_⟩
  intro idx hidx
  exact servingState_some _ idx hidx

end Aikosh
